import Mathlib

/-!
Verification model of the local path index and fuzzy search engine
(`path_index_local.py` of the Computer_Main_Centre repository).

The Python module stores filesystem paths in a SQLite table
(`paths(path TEXT PRIMARY KEY)`, plus an optional contentless FTS5 mirror
`paths_fts`) and answers ranked fuzzy queries over them.  This file gives a
shallow embedding of that module:

* the stored table is modelled as the list of its rows in insertion order
  (a `SELECT` without `ORDER BY` is modelled as scanning that list);
* SQLite `LOWER` and Python `str.lower` are modelled as ASCII case folding
  (the indexed strings and queries exercised here are ASCII);
* Python floats are modelled as exact rationals; because the Mathlib
  arithmetic on `ℚ` is `@[irreducible]`, the model computes with its own
  rational operations (`qAdd`, `qMul`, ...) built from `Rat.normalize` /
  `Rat.divInt`, each proved equal to the corresponding Mathlib operation;
* `difflib.SequenceMatcher(None, a, b).ratio()` is modelled without the
  autojunk heuristic, which only activates when the second string has at
  least 200 characters and is inert on the strings considered here.
-/

/-! ### Python string primitives -/

/-- ASCII lower-casing of one character, as `SQLite LOWER` and `str.lower`
act on ASCII text. -/
def lowerChar (c : Char) : Char :=
  if 'A' ≤ c ∧ c ≤ 'Z' then Char.ofNat (c.toNat + 32) else c

/-- ASCII lower-casing of a string. -/
def lowerStr (s : String) : String := String.mk (s.data.map lowerChar)

/-- Python whitespace characters (the class `\s` of `re`, and the default
separators of `str.split` and `str.strip`). -/
def isPySpace (c : Char) : Bool :=
  c = ' ' ∨ c = '\t' ∨ c = '\n' ∨ c = '\r' ∨ c = '\x0b' ∨ c = '\x0c'

/-- Split a character list at every character satisfying `p`; adjacent
separators produce empty groups, which callers filter away.  This models
both `str.split()` on whitespace runs and `re.split` on a character class. -/
def splitRuns (p : Char → Bool) : List Char → List (List Char)
  | [] => [[]]
  | c :: cs =>
    match splitRuns p cs with
    | [] => if p c then [[], []] else [[c]]
    | g :: gs => if p c then [] :: g :: gs else (c :: g) :: gs

/-- Model of `_tokenize_query`: replace newlines by spaces, split on
whitespace, strip and lower-case each token and drop empties.  Replacing
newlines first is a no-op here because newlines are whitespace. -/
def tokenizeQuery (q : String) : List String :=
  ((splitRuns isPySpace q.data).filter (· ≠ [])).map
    (fun t => String.mk (t.map lowerChar))

/-- Model of the static `_SYNONYMS` table. -/
def synonymsOf (t : String) : List String :=
  if t = "server" then ["servers", "srv", "instance", "world"]
  else if t = "servers" then ["server", "srv", "instance", "world"]
  else if t = "atlauncher" then ["atlauncher", "launcher"]
  else []

/-- Model of `_expand_terms`: the original terms followed by their synonyms,
first-seen order, de-duplicated (the Python `seen` set is the membership
test on the accumulated output list). -/
def expandTerms (terms : List String) : List String :=
  terms.foldl (fun acc t =>
    let acc1 := if t ∈ acc then acc else acc ++ [t]
    (synonymsOf t).foldl (fun a s => if s ∈ a then a else a ++ [s]) acc1) []

/-- Separator class of `_path_tokens`: the regex `[\\/._\-\s]+`. -/
def isSepChar (c : Char) : Bool :=
  c = '\\' ∨ c = '/' ∨ c = '.' ∨ c = '_' ∨ c = '-' ∨ isPySpace c

/-- Model of `_path_tokens`: split the lower-cased path on separator runs
and keep the non-empty segments. -/
def pathTokens (plow : String) : List String :=
  ((splitRuns isSepChar plow.data).filter (· ≠ [])).map String.mk

/-- Model of `os.path.basename` on Windows (`ntpath`): the suffix after the
last slash or backslash.  (`ntpath` and `posixpath` agree on paths that
contain a slash after the drive, which is the shape indexed here.) -/
def pyBasename (p : String) : String :=
  String.mk (p.data.foldl (fun acc c => if c = '/' ∨ c = '\\' then [] else acc ++ [c]) [])

/-- Python substring containment, `needle in haystack`. -/
def isSubList (n : List Char) : List Char → Bool
  | [] => n.isEmpty
  | c :: t => n.isPrefixOf (c :: t) || isSubList n t

/-! ### difflib.SequenceMatcher -/

/-- Length of the common prefix of two character lists. -/
def commonPrefixLen : List Char → List Char → Nat
  | a :: as, b :: bs => if a = b then commonPrefixLen as bs + 1 else 0
  | _, _ => 0

/-- The longest matching block of `find_longest_match` (with no junk):
the triple `(i, j, k)` maximising the match length `k` of `a[i:i+k] =
b[j:j+k]`, ties broken by the smallest `i`, then the smallest `j` — the
documented choice of `difflib`.  Candidates are scanned in increasing `i`
then `j`, updating only on a strictly longer match. -/
def longestMatch (a b : List Char) : Nat × Nat × Nat :=
  (List.range a.length).foldl (fun best i =>
    (List.range b.length).foldl (fun best j =>
      let k := commonPrefixLen (a.drop i) (b.drop j)
      if best.2.2 < k then (i, j, k) else best) best) (0, 0, 0)

/-- Total number of matched characters of `get_matching_blocks`: recursively
split around the longest matching block.  The fuel argument only serves to
make the recursion structural; `a.length + 1` steps always suffice because
each recursive call strictly shortens the first list. -/
def matchTotalF : Nat → List Char → List Char → Nat
  | 0, _, _ => 0
  | fuel + 1, a, b =>
    let m := longestMatch a b
    if m.2.2 = 0 then 0
    else
      matchTotalF fuel (a.take m.1) (b.take m.2.1) + m.2.2 +
        matchTotalF fuel (a.drop (m.1 + m.2.2)) (b.drop (m.2.1 + m.2.2))

/-- Total matched characters between `a` and `b`. -/
def matchTotal (a b : List Char) : Nat := matchTotalF (a.length + 1) a b

/-- Model of `SequenceMatcher(None, a, b).ratio() * 100`: the percentage
`2 * M / T * 100 = 200 * M / T` where `M` is the total matched length and
`T` the total length; `difflib` returns ratio `1.0` when both strings are
empty. -/
def ratio100 (a b : List Char) : ℚ :=
  if a.length + b.length = 0 then 100
  else Rat.divInt (200 * matchTotal a b) (a.length + b.length)

/-! ### Computable rational arithmetic

The Mathlib operations on `ℚ` are `@[irreducible]`; the model therefore
computes with the following operations, built from the reducible
`Rat.normalize` and `Rat.divInt`, and each proved equal to the Mathlib
operation so that ordered-field reasoning transfers. -/

/-- Computable addition on `ℚ` (the body of `Rat.add_def`). -/
def qAdd (a b : ℚ) : ℚ :=
  Rat.normalize (a.num * b.den + b.num * a.den) (a.den * b.den)
    (Nat.mul_ne_zero a.den_nz b.den_nz)

/-- Computable multiplication on `ℚ` (the body of `Rat.mul_def`). -/
def qMul (a b : ℚ) : ℚ :=
  Rat.normalize (a.num * b.num) (a.den * b.den)
    (Nat.mul_ne_zero a.den_nz b.den_nz)

/-- Computable maximum on `ℚ`, also modelling Python `max(a, b)`. -/
def qMax (a b : ℚ) : ℚ := if Rat.blt a b then b else a

/-- Computable division of a rational by a natural number. -/
def qDivNat (a : ℚ) (k : ℕ) : ℚ := Rat.divInt a.num (a.den * k)

/-- Computable embedding of `ℤ` into `ℚ`. -/
def intToQ (n : ℤ) : ℚ := Rat.divInt n 1

theorem qAdd_eq (a b : ℚ) : qAdd a b = a + b := (Rat.add_def a b).symm

theorem qMul_eq (a b : ℚ) : qMul a b = a * b := (Rat.mul_def a b).symm

theorem rat_blt_iff (a b : ℚ) : Rat.blt a b = true ↔ a < b := Iff.rfl

theorem qMax_eq (a b : ℚ) : qMax a b = max a b := by
  unfold qMax
  rcases lt_or_le a b with h | h
  · rw [if_pos ((rat_blt_iff a b).mpr h), max_eq_right h.le]
  · have hb : ¬(Rat.blt a b = true) := by rw [rat_blt_iff]; exact not_lt.mpr h
    rw [if_neg hb, max_eq_left h]

theorem intToQ_eq (n : ℤ) : intToQ n = (n : ℚ) := Rat.divInt_one n

theorem qDivNat_eq (a : ℚ) (k : ℕ) : qDivNat a k = a / (k : ℚ) := by
  rw [qDivNat, Rat.divInt_eq_div]
  push_cast
  rw [div_mul_eq_div_div, Rat.num_div_den]

/-- Python `max` over a list of rationals, with `max([]) if [] else 0.0`
collapsed to `0` as in the source. -/
def pyMaxQ : List ℚ → ℚ
  | [] => 0
  | x :: xs => xs.foldl qMax x

/-- Python `sum(l) / len(l) if l else 0.0`. -/
def pyAvgQ (l : List ℚ) : ℚ :=
  match l with
  | [] => 0
  | _ :: _ => qDivNat (l.foldl qAdd 0) l.length

/-- Python `int(round(x))` on an exact rational: round half to even. -/
def pyRound (q : ℚ) : ℤ :=
  let f := q.num.fdiv q.den
  let rnum := q.num - f * q.den
  if 2 * rnum < (q.den : ℤ) then f
  else if (q.den : ℤ) < 2 * rnum then f + 1
  else if f % 2 = 0 then f else f + 1

/-! ### Scoring (`advanced_query_paths`, scoring loop) -/

/-- Presence of a core term in a candidate: substring of the lower-cased
path, or some path segment with similarity ratio at least 70 percent. -/
def termPresent (t : String) (plow : String) (tokens : List String) : Bool :=
  isSubList t.data plow.data ||
    tokens.any (fun tok => decide ((70 : ℚ) ≤ ratio100 t.data tok.data))

/-- The per-expanded-term fuzzy percentages: the better of the ratio against
the lower-cased basename and against the full lower-cased path. -/
def fuzzyScoresOf (expanded : List String) (bn plow : String) : List ℚ :=
  expanded.map (fun t => qMax (ratio100 t.data bn.data) (ratio100 t.data plow.data))

/-- The floating `base_score` of the scoring loop, as an exact rational:
coverage bonus (140 / minus 90 per missing term for several core terms,
40 for a single contained core term), plus 15 per contained core term,
plus `0.4 * fmax + 0.2 * favg` (the weights are exactly 2/5 and 1/5). -/
def baseScoreQ (core expanded : List String) (p : String) : ℚ :=
  let plow := lowerStr p
  let bn := lowerStr (pyBasename p)
  let tokens := pathTokens plow
  let containsCore := core.filter (fun t => termPresent t plow tokens)
  let containsAllCore : Bool := decide (core.length ≤ containsCore.length)
  let coverage : ℤ :=
    if 1 < core.length then
      if containsAllCore then 140
      else -(90 * ((core.length : ℤ) - (containsCore.length : ℤ)))
    else
      if containsAllCore then 40 else 0
  let withTerms : ℤ := coverage + 15 * (containsCore.length : ℤ)
  let fuzzy := fuzzyScoresOf expanded bn plow
  qAdd (intToQ withTerms)
    (qAdd (qMul (Rat.divInt 2 5) (pyMaxQ fuzzy)) (qMul (Rat.divInt 1 5) (pyAvgQ fuzzy)))

/-- The integer score stored in a result record: `int(round(base_score))`. -/
def scoreOf (core expanded : List String) (p : String) : ℤ :=
  pyRound (baseScoreQ core expanded p)

/-! ### Candidate retrieval (`advanced_query_paths`, SQL phase) -/

/-- SQL `LIKE` matching for a pattern built by wrapping a term in percent
signs: a percent sign matches any run of characters and an underscore
matches any single character.  The fuel only makes the recursion
structural; every step shortens the pattern or the text. -/
def likeMatchF : Nat → List Char → List Char → Bool
  | 0, _, _ => false
  | _ + 1, [], [] => true
  | _ + 1, [], _ :: _ => false
  | f + 1, '%' :: ps, s =>
    likeMatchF f ps s ||
      (match s with
       | [] => false
       | _ :: s2 => likeMatchF f ('%' :: ps) s2)
  | f + 1, '_' :: ps, _ :: s => likeMatchF f ps s
  | _ + 1, '_' :: _, [] => false
  | f + 1, c :: ps, d :: s => c = d && likeMatchF f ps s
  | _ + 1, _ :: _, [] => false

/-- Model of `LOWER(path) LIKE '%term%'` (terms are already lower-cased by
the tokenizer). -/
def likeContains (t : String) (p : String) : Bool :=
  likeMatchF (t.length + p.length + 4) ('%' :: t.data ++ ['%']) (lowerStr p).data

/-- The `like_terms` list of the fallback OR query: each expanded term,
then for terms of length at least 3 their first-three-character slice,
first-seen order, de-duplicated. -/
def buildLikeTerms (expanded : List String) : List String :=
  expanded.foldl (fun lt t =>
    let lt1 := if t ∈ lt then lt else lt ++ [t]
    if 3 ≤ t.length then
      let short := String.mk (t.data.take 3)
      if short ∈ lt1 then lt1 else lt1 ++ [short]
    else lt1) []

/-- The merge loop of the fallback phase: walk the extra rows, keeping the
ones not already present in the base pool nor collected so far. -/
def mergeNewAux (base : List String) (acc : List String) : List String → List String
  | [] => acc
  | p :: ps =>
    if p ∈ base ∨ p ∈ acc then mergeNewAux base acc ps
    else mergeNewAux base (acc ++ [p]) ps

/-- Append the elements of a list to an accumulator, skipping the ones
already present (used both for the final de-duplication pass and for
`INSERT OR IGNORE`). -/
def dedupInto (acc : List String) (l : List String) : List String :=
  l.foldl (fun a p => if p ∈ a then a else a ++ [p]) acc

/-- The two-phase candidate retrieval of `advanced_query_paths`: an AND
query over the core terms capped at `max(limit * 80, 2000)` rows, then, if
that yields fewer rows than the limit, an OR query over the like-terms,
merged without repeats, and a final de-duplication pass. -/
def retrieveCandidates (db : List String) (core expanded : List String) (limit : ℤ) :
    List String :=
  let candidateMax := if limit * 80 < 2000 then 2000 else limit * 80
  let primary :=
    if core ≠ [] then
      (db.filter (fun p => core.all (fun t => likeContains t p))).take candidateMax.toNat
    else []
  let merged :=
    if (primary.length : ℤ) < limit then
      let likeTerms := buildLikeTerms expanded
      let extra :=
        if likeTerms ≠ [] then
          (db.filter (fun p => likeTerms.any (fun t => likeContains t p))).take
            candidateMax.toNat
        else []
      primary ++ mergeNewAux primary [] extra
    else primary
  dedupInto [] merged

/-! ### Ranking and the public query entrypoints -/

/-- A returned record `{path, score}`. -/
structure ScoredResult where
  path : String
  score : ℤ
deriving DecidableEq, Repr

/-- The sort key ordering of `results.sort(key=lambda r: (-score, len(path)))`:
ascending lexicographic on `(-score, length)`, i.e. score descending then
path length ascending. -/
def resultLe (a b : ScoredResult) : Bool :=
  decide (b.score < a.score) ||
    (decide (a.score = b.score) && decide (a.path.length ≤ b.path.length))

/-- Stable insertion into a ranked list: the new element goes after every
element that compares less-or-equal to it, as in Python stable sorting. -/
def insertRanked (x : ScoredResult) : List ScoredResult → List ScoredResult
  | [] => [x]
  | y :: ys => if resultLe y x then y :: insertRanked x ys else x :: y :: ys

/-- Stable sort by the ranking key (insertion sort; its output on a total
preorder coincides with any stable ascending sort, hence with Python
`list.sort`). -/
def stableRankSort (l : List ScoredResult) : List ScoredResult :=
  l.foldl (fun acc x => insertRanked x acc) []

/-- Python slicing `l[:n]` for a possibly negative `n`. -/
def pySlice {α : Type} (l : List α) (n : ℤ) : List α :=
  if 0 ≤ n then l.take n.toNat else l.take ((l.length : ℤ) + n).toNat

/-- The scored, ranked (not yet truncated) result list of
`advanced_query_paths`. -/
def rankedResults (db : List String) (q : String) (limit : ℤ) : List ScoredResult :=
  let terms := tokenizeQuery q
  let core := terms
  let expanded := expandTerms terms
  let cands := retrieveCandidates db core expanded limit
  stableRankSort (cands.map (fun p => { path := p, score := scoreOf core expanded p }))

/-- Model of `advanced_query_paths(db, q, limit)`: empty term list short
circuits to `[]`; otherwise retrieve, score, rank and truncate with Python
slicing semantics. -/
def advancedQueryPaths (db : List String) (q : String) (limit : ℤ := 50) :
    List ScoredResult :=
  if tokenizeQuery q = [] then [] else pySlice (rankedResults db q limit) limit

/-- Model of `super_find(q, limit=20)`. -/
def superFind (db : List String) (q : String) (limit : ℤ := 20) : List ScoredResult :=
  advancedQueryPaths db q limit

/-! ### Index building (`rebuild_index`) -/

/-- The database state: the rows of the primary `paths` table and of the
FTS mirror `paths_fts`, each in insertion order.  When the FTS capability
is absent the mirror list is simply never touched. -/
structure DBState where
  paths : List String
  fts : List String
deriving DecidableEq, Repr

/-- An abstract filesystem snapshot: a root string maps to the list of
entry strings that `root.rglob` yields beneath it (absent keys model
nonexistent roots). -/
abbrev FileSystem : Type := List (String × List String)

/-- Python `tgt.rstrip(":/\\")`: drop trailing colons, slashes and
backslashes. -/
def rstripSeps (s : List Char) : List Char :=
  (s.reverse.dropWhile (fun c => c = ':' ∨ c = '/' ∨ c = '\\')).reverse

/-- Python `str.strip()`: drop surrounding whitespace. -/
def stripWs (s : List Char) : List Char :=
  ((s.dropWhile isPySpace).reverse.dropWhile isPySpace).reverse

/-- The target normalisation of `rebuild_index`:
`drive = tgt.rstrip(":/\\").strip()`. -/
def stripTarget (tgt : String) : String := String.mk (stripWs (rstripSeps tgt.data))

/-- One row insertion of a batch: `INSERT OR IGNORE` into the primary
table (the `path` column is the primary key), plain `INSERT` into the FTS
mirror when it exists.  Batch boundaries do not affect the final contents,
so the model inserts row by row. -/
def insertPath (hasFts : Bool) (st : DBState) (p : String) : DBState :=
  { paths := if p ∈ st.paths then st.paths else st.paths ++ [p]
    fts := if hasFts then st.fts ++ [p] else st.fts }

/-- Model of `rebuild_index`: clear the primary table, drop and recreate
the FTS mirror when present, then for each target strip trailing
separators and whitespace, append `:/`, and insert every filesystem entry
beneath that root; empty target names and missing roots are skipped. -/
def rebuildIndex (hasFts : Bool) (fs : FileSystem) (st : DBState)
    (targets : List String) : DBState :=
  let cleared : DBState := { paths := [], fts := if hasFts then [] else st.fts }
  targets.foldl (fun acc tgt =>
    let drive := stripTarget tgt
    if drive = "" then acc
    else
      match List.lookup (drive ++ ":/") fs with
      | none => acc
      | some entries => entries.foldl (insertPath hasFts) acc) cleared

/-- The entries one target contributes to the walk: the filesystem listing
of its normalised root (`drive ++ ":/"`), none for empty names or missing
roots. -/
def targetEntries (fs : FileSystem) (tgt : String) : List String :=
  let drive := stripTarget tgt
  if drive = "" then [] else (List.lookup (drive ++ ":/") fs).getD []

/-- The full walked entry sequence of a rebuild, in discovery order. -/
def walkList (fs : FileSystem) (targets : List String) : List String :=
  targets.foldl (fun acc tgt => acc ++ targetEntries fs tgt) []

/-- The row count of the primary table, `SELECT COUNT(*) FROM paths`. -/
def storedCount (st : DBState) : ℕ := st.paths.length

/-! ### Module-level names (for the `count` entrypoint)

`Computer_Main_Centre.py` line 4004 runs
`from path_index_local import quick_count`; these definitions record the
names actually bound at module level of `path_index_local.py`, line by
line, and the name that import requests. -/

/-- Every module-level name bound by `path_index_local.py` (imports,
assignments and function definitions, in source order). -/
def pathIndexLocalTopLevelNames : List String :=
  ["os", "time", "sqlite3", "difflib", "re", "Path", "List", "Dict", "Any",
   "get_default_db", "DEFAULT_DB", "connect", "ensure_schema", "rebuild_index",
   "quick_build", "_tokenize_query", "_SYNONYMS", "_expand_terms", "_path_tokens",
   "advanced_query_paths", "super_find"]

/-- The name the `/qcount` handler imports from `path_index_local`. -/
def quickCountImportName : String := "quick_count"

/-! ### Spec-side definitions

The following definitions restate, in the words of the specification, the
scoring formula and the candidate retrieval; the refinement theorems below
compare them with the source-translated definitions above. -/

/-- Spec wording of containment: the core term is a substring of the
lower-cased path, or some separator-delimited segment of the path has
sequence-similarity ratio at least 0.70 with it. -/
def specContained (t : String) (p : String) : Prop :=
  isSubList t.data (lowerStr p).data = true ∨
    ∃ seg ∈ pathTokens (lowerStr p), (70 : ℚ) ≤ ratio100 t.data seg.data

instance (t p : String) : Decidable (specContained t p) := by
  unfold specContained; infer_instance

/-- Spec wording of the coverage bonus: with more than one core term,
plus 140 when all core terms are contained and otherwise minus 90 per
missing core term; with exactly one core term, plus 40 when it is
contained. -/
def specCoverage (core : List String) (p : String) : ℤ :=
  if 1 < core.length then
    if ∀ t ∈ core, specContained t p then 140
    else -(90 * (core.countP (fun t => decide (¬specContained t p)) : ℤ))
  else if core.length = 1 ∧ ∀ t ∈ core, specContained t p then 40
  else 0

/-- Spec wording of the per-term bonus: 15 per contained core term. -/
def specPerTerm (core : List String) (p : String) : ℤ :=
  15 * (core.countP (fun t => decide (specContained t p)) : ℤ)

/-- Spec wording of the fuzzy bonus: 0.4 times the best and 0.2 times the
average of the per-expanded-term percentages
`max(ratio(term, basename), ratio(term, full lower-cased path))`. -/
def specFuzzy (expanded : List String) (p : String) : ℚ :=
  let percents := expanded.map (fun t =>
    qMax (ratio100 t.data (lowerStr (pyBasename p)).data)
         (ratio100 t.data (lowerStr p).data))
  qAdd (qMul (Rat.divInt 2 5) (pyMaxQ percents)) (qMul (Rat.divInt 1 5) (pyAvgQ percents))

/-- Spec wording of the final score: the rounded-to-integer sum of the
coverage bonus, the per-term bonus and the fuzzy bonus. -/
def specScoreOf (core expanded : List String) (p : String) : ℤ :=
  pyRound (qAdd (intToQ (specCoverage core p + specPerTerm core p)) (specFuzzy expanded p))

/-- Spec wording of candidate retrieval, with the amendment that term
containment is SQL `LIKE` containment: Phase A keeps, up to the cap, the
stored paths `LIKE`-containing every core term; only if that yields fewer
rows than the limit, Phase B adds, up to the cap, the paths
`LIKE`-containing any expanded term, or, for expanded terms of length at
least 3, their first-three-character slice; the final pool lists each path
once, in order of first discovery. -/
def candidatesSpec (db : List String) (core expanded : List String) (limit : ℤ) :
    List String :=
  let cap := (if limit * 80 < 2000 then 2000 else limit * 80).toNat
  let phaseA := (db.filter (fun p => core.all (fun t => likeContains t p))).take cap
  if (phaseA.length : ℤ) < limit then
    let phaseB := (db.filter (fun p => expanded.any (fun t =>
      likeContains t p ||
        (decide (3 ≤ t.length) && likeContains (String.mk (t.data.take 3)) p)))).take cap
    dedupInto [] (phaseA ++ phaseB)
  else dedupInto [] phaseA

/-! ### Lemmas: de-duplication machinery -/

/-- The elements a de-duplicating append actually adds: first occurrences
not already present in the accumulator. -/
def newFirsts (acc : List String) : List String → List String
  | [] => []
  | p :: ps => if p ∈ acc then newFirsts acc ps else p :: newFirsts (acc ++ [p]) ps

theorem dedupInto_nil (acc : List String) : dedupInto acc [] = acc := rfl

theorem dedupInto_cons (acc : List String) (p : String) (l : List String) :
    dedupInto acc (p :: l) = dedupInto (if p ∈ acc then acc else acc ++ [p]) l := rfl

theorem dedupInto_append (acc l1 l2 : List String) :
    dedupInto acc (l1 ++ l2) = dedupInto (dedupInto acc l1) l2 :=
  List.foldl_append ..

theorem dedupInto_eq_newFirsts (l acc : List String) :
    dedupInto acc l = acc ++ newFirsts acc l := by
  induction l generalizing acc with
  | nil => simp [dedupInto_nil, newFirsts]
  | cons p ps ih =>
    rw [dedupInto_cons, newFirsts]
    by_cases hp : p ∈ acc
    · rw [if_pos hp, if_pos hp, ih]
    · rw [if_neg hp, if_neg hp, ih, List.append_assoc]
      rfl

theorem mergeNewAux_eq_newFirsts (l base c : List String) :
    mergeNewAux base c l = c ++ newFirsts (base ++ c) l := by
  induction l generalizing c with
  | nil => simp [mergeNewAux, newFirsts]
  | cons p ps ih =>
    rw [mergeNewAux, newFirsts]
    by_cases hp : p ∈ base ∨ p ∈ c
    · rw [if_pos hp, if_pos (List.mem_append.mpr hp), ih]
    · rw [if_neg hp, if_neg (fun hm => hp (List.mem_append.mp hm)), ih,
        List.append_assoc, List.append_assoc]
      simp

theorem newFirsts_congr {A B : List String} (l : List String)
    (h : ∀ x, x ∈ A ↔ x ∈ B) : newFirsts A l = newFirsts B l := by
  induction l generalizing A B with
  | nil => rfl
  | cons p ps ih =>
    rw [newFirsts, newFirsts]
    by_cases hp : p ∈ A
    · rw [if_pos hp, if_pos ((h p).mp hp), ih h]
    · rw [if_neg hp, if_neg (fun hb => hp ((h p).mpr hb))]
      refine congrArg _ (ih fun x => ?_)
      simp only [List.mem_append, List.mem_singleton]
      exact or_congr_left (h x)

theorem newFirsts_idem (l A : List String) :
    newFirsts A (newFirsts A l) = newFirsts A l := by
  induction l generalizing A with
  | nil => rfl
  | cons p ps ih =>
    rw [newFirsts]
    by_cases hp : p ∈ A
    · rw [if_pos hp]; exact ih A
    · rw [if_neg hp, newFirsts, if_neg hp]
      exact congrArg _ (ih (A ++ [p]))

theorem mem_of_mem_newFirsts {x : String} {A l : List String}
    (h : x ∈ newFirsts A l) : x ∈ l := by
  induction l generalizing A with
  | nil => simp [newFirsts] at h
  | cons p ps ih =>
    rw [newFirsts] at h
    by_cases hp : p ∈ A
    · rw [if_pos hp] at h
      exact List.mem_cons_of_mem _ (ih h)
    · rw [if_neg hp] at h
      rcases List.mem_cons.mp h with h1 | h1
      · exact h1 ▸ List.mem_cons_self _ _
      · exact List.mem_cons_of_mem _ (ih h1)

theorem mem_newFirsts_of_mem {x : String} {A l : List String}
    (hx : x ∈ l) (hA : x ∉ A) : x ∈ newFirsts A l := by
  induction l generalizing A with
  | nil => simp at hx
  | cons p ps ih =>
    rw [newFirsts]
    rcases List.mem_cons.mp hx with h1 | h1
    · subst h1
      rw [if_neg hA]
      exact List.mem_cons_self _ _
    · by_cases hp : p ∈ A
      · rw [if_pos hp]; exact ih h1 hA
      · rw [if_neg hp]
        by_cases hxp : x = p
        · exact hxp ▸ List.mem_cons_self _ _
        · refine List.mem_cons_of_mem _ (ih h1 ?_)
          simp only [List.mem_append, List.mem_singleton]
          exact fun hc => hc.elim hA hxp

theorem mem_dedupInto_nil {x : String} (l : List String) :
    x ∈ dedupInto [] l ↔ x ∈ l := by
  rw [dedupInto_eq_newFirsts]
  simp only [List.nil_append]
  exact ⟨mem_of_mem_newFirsts, fun h => mem_newFirsts_of_mem h (List.not_mem_nil x)⟩

theorem newFirsts_append (l1 l2 A : List String) :
    newFirsts A (l1 ++ l2) = newFirsts A l1 ++ newFirsts (A ++ newFirsts A l1) l2 := by
  induction l1 generalizing A with
  | nil => simp [newFirsts]
  | cons p ps ih =>
    rw [List.cons_append, newFirsts, newFirsts]
    by_cases hp : p ∈ A
    · rw [if_pos hp, if_pos hp, ih]
    · rw [if_neg hp, if_neg hp, ih, List.cons_append, List.append_assoc]
      rfl

theorem dedupInto_merge (a b : List String) :
    dedupInto [] (a ++ mergeNewAux a [] b) = dedupInto [] (a ++ b) := by
  have hmem : ∀ x, x ∈ newFirsts [] a ↔ x ∈ a := fun x =>
    ⟨mem_of_mem_newFirsts, fun h => mem_newFirsts_of_mem h (List.not_mem_nil x)⟩
  rw [mergeNewAux_eq_newFirsts]
  simp only [List.append_nil, List.nil_append]
  rw [dedupInto_eq_newFirsts, dedupInto_eq_newFirsts, newFirsts_append, newFirsts_append]
  simp only [List.nil_append]
  rw [newFirsts_congr (newFirsts a b) hmem, newFirsts_congr b hmem, newFirsts_idem]

theorem dedupInto_eq_self {A l : List String} (h : ∀ x ∈ l, x ∈ A) :
    dedupInto A l = A := by
  induction l generalizing A with
  | nil => rfl
  | cons p ps ih =>
    rw [dedupInto_cons, if_pos (h p (List.mem_cons_self _ _))]
    exact ih fun x hx => h x (List.mem_cons_of_mem _ hx)

theorem nodup_dedupInto (l : List String) {A : List String} (hA : A.Nodup) :
    (dedupInto A l).Nodup := by
  induction l generalizing A with
  | nil => exact hA
  | cons p ps ih =>
    rw [dedupInto_cons]
    by_cases hp : p ∈ A
    · rw [if_pos hp]; exact ih hA
    · rw [if_neg hp]
      refine ih ?_
      rw [← List.concat_eq_append]
      exact List.Nodup.concat hp hA

/-! ### Lemmas: rebuild characterisation -/

theorem foldl_insertPath_paths (hasFts : Bool) (entries : List String) (st : DBState) :
    (entries.foldl (insertPath hasFts) st).paths = dedupInto st.paths entries := by
  induction entries generalizing st with
  | nil => rfl
  | cons p ps ih =>
    rw [List.foldl_cons, ih, dedupInto_cons, insertPath]

theorem foldl_insertPath_fts (hasFts : Bool) (entries : List String) (st : DBState) :
    (entries.foldl (insertPath hasFts) st).fts =
      if hasFts then st.fts ++ entries else st.fts := by
  induction entries generalizing st with
  | nil => simp
  | cons p ps ih =>
    rw [List.foldl_cons, ih, insertPath]
    by_cases h : hasFts = true
    · simp [h]
    · simp [h]

theorem foldl_append_init {α : Type} (E : α → List String) (ts : List α)
    (init : List String) :
    ts.foldl (fun a t => a ++ E t) init = init ++ ts.foldl (fun a t => a ++ E t) [] := by
  induction ts generalizing init with
  | nil => simp
  | cons t ts ih =>
    rw [List.foldl_cons, List.foldl_cons, ih, List.nil_append,
      ih (E t), List.append_assoc]

theorem walkList_cons (fs : FileSystem) (t : String) (ts : List String) :
    walkList fs (t :: ts) = targetEntries fs t ++ walkList fs ts := by
  rw [walkList, List.foldl_cons, List.nil_append, foldl_append_init]
  rfl

theorem rebuild_step_paths (hasFts : Bool) (fs : FileSystem) (acc : DBState)
    (tgt : String) :
    ((fun (acc : DBState) (tgt : String) =>
        let drive := stripTarget tgt
        if drive = "" then acc
        else
          match List.lookup (drive ++ ":/") fs with
          | none => acc
          | some entries => entries.foldl (insertPath hasFts) acc) acc tgt).paths =
      dedupInto acc.paths (targetEntries fs tgt) := by
  simp only [targetEntries]
  by_cases hd : stripTarget tgt = ""
  · simp [hd, dedupInto_nil]
  · simp only [hd, if_neg hd, ite_false]
    cases hlk : List.lookup (stripTarget tgt ++ ":/") fs with
    | none => simp [dedupInto_nil]
    | some entries => simp [foldl_insertPath_paths]

theorem rebuild_paths (hasFts : Bool) (fs : FileSystem) (st : DBState)
    (targets : List String) :
    (rebuildIndex hasFts fs st targets).paths = dedupInto [] (walkList fs targets) := by
  rw [rebuildIndex]
  suffices h : ∀ (ts : List String) (acc : DBState),
      (ts.foldl (fun acc tgt =>
        let drive := stripTarget tgt
        if drive = "" then acc
        else
          match List.lookup (drive ++ ":/") fs with
          | none => acc
          | some entries => entries.foldl (insertPath hasFts) acc) acc).paths =
        dedupInto acc.paths (walkList fs ts) by
    exact h targets _
  intro ts
  induction ts with
  | nil => intro acc; rfl
  | cons t ts ih =>
    intro acc
    rw [List.foldl_cons, ih, walkList_cons, dedupInto_append, rebuild_step_paths]

theorem rebuild_fts (hasFts : Bool) (fs : FileSystem) (st : DBState)
    (targets : List String) :
    (rebuildIndex hasFts fs st targets).fts =
      if hasFts then walkList fs targets else st.fts := by
  rw [rebuildIndex]
  suffices h : ∀ (ts : List String) (acc : DBState),
      (ts.foldl (fun acc tgt =>
        let drive := stripTarget tgt
        if drive = "" then acc
        else
          match List.lookup (drive ++ ":/") fs with
          | none => acc
          | some entries => entries.foldl (insertPath hasFts) acc) acc).fts =
        if hasFts then acc.fts ++ walkList fs ts else acc.fts by
    rw [h targets _]
    by_cases hf : hasFts = true
    · simp [hf]
    · simp [hf]
  intro ts
  induction ts with
  | nil =>
    intro acc
    by_cases hf : hasFts = true
    · simp [hf, walkList]
    · simp [hf]
  | cons t ts ih =>
    intro acc
    rw [List.foldl_cons, ih, walkList_cons]
    have hstep : ∀ (acc2 : DBState),
        ((let drive := stripTarget t
          if drive = "" then acc2
          else
            match List.lookup (drive ++ ":/") fs with
            | none => acc2
            | some entries => entries.foldl (insertPath hasFts) acc2) : DBState).fts =
          if hasFts then acc2.fts ++ targetEntries fs t else acc2.fts := by
      intro acc2
      simp only [targetEntries]
      by_cases hd : stripTarget t = ""
      · simp [hd]
      · simp only [hd, if_neg hd, ite_false]
        cases hlk : List.lookup (stripTarget t ++ ":/") fs with
        | none => simp
        | some entries => simp [foldl_insertPath_fts]
    rw [hstep]
    by_cases hf : hasFts = true
    · simp [hf, List.append_assoc]
    · simp [hf]

/-! ### Lemmas: ranking order -/

/-- The ranking relation: score strictly greater, or equal score and path
not longer. -/
def rankRel (a b : ScoredResult) : Prop :=
  b.score < a.score ∨ (a.score = b.score ∧ a.path.length ≤ b.path.length)

theorem resultLe_iff (a b : ScoredResult) : resultLe a b = true ↔ rankRel a b := by
  simp [resultLe, rankRel]

theorem rankRel_total (a b : ScoredResult) : rankRel a b ∨ rankRel b a := by
  unfold rankRel
  rcases lt_trichotomy a.score b.score with h | h | h
  · exact Or.inr (Or.inl h)
  · rcases Nat.le_total a.path.length b.path.length with h2 | h2
    · exact Or.inl (Or.inr ⟨h, h2⟩)
    · exact Or.inr (Or.inr ⟨h.symm, h2⟩)
  · exact Or.inl (Or.inl h)

theorem rankRel_trans {a b c : ScoredResult} (h1 : rankRel a b) (h2 : rankRel b c) :
    rankRel a c := by
  unfold rankRel at h1 h2 ⊢
  rcases h1 with h1 | ⟨h1, h1l⟩ <;> rcases h2 with h2 | ⟨h2, h2l⟩
  · exact Or.inl (h2.trans h1)
  · exact Or.inl (h2 ▸ h1)
  · exact Or.inl (h1 ▸ h2)
  · exact Or.inr ⟨h1.trans h2, h1l.trans h2l⟩

theorem mem_insertRanked {x y : ScoredResult} {l : List ScoredResult} :
    x ∈ insertRanked y l ↔ x = y ∨ x ∈ l := by
  induction l with
  | nil => simp [insertRanked]
  | cons z zs ih =>
    rw [insertRanked]
    by_cases h : resultLe z y = true
    · rw [if_pos h]
      simp only [List.mem_cons, ih]
      tauto
    · rw [if_neg h]
      simp only [List.mem_cons]

theorem pairwise_insertRanked {x : ScoredResult} {l : List ScoredResult}
    (hl : l.Pairwise rankRel) : (insertRanked x l).Pairwise rankRel := by
  induction l with
  | nil => simp [insertRanked]
  | cons y ys ih =>
    rw [insertRanked]
    rcases List.pairwise_cons.mp hl with ⟨hy, hys⟩
    by_cases h : resultLe y x = true
    · rw [if_pos h]
      refine List.pairwise_cons.mpr ⟨?_, ih hys⟩
      intro z hz
      rcases mem_insertRanked.mp hz with rfl | hz2
      · exact (resultLe_iff y z).mp h
      · exact hy z hz2
    · rw [if_neg h]
      have hxy : rankRel x y := by
        rcases rankRel_total x y with h1 | h1
        · exact h1
        · exact absurd ((resultLe_iff y x).mpr h1) h
      refine List.pairwise_cons.mpr ⟨?_, hl⟩
      intro z hz
      rcases List.mem_cons.mp hz with rfl | hz2
      · exact hxy
      · exact rankRel_trans hxy (hy z hz2)

theorem pairwise_stableRankSort (l : List ScoredResult) :
    (stableRankSort l).Pairwise rankRel := by
  rw [stableRankSort]
  suffices h : ∀ (ls : List ScoredResult) (acc : List ScoredResult),
      acc.Pairwise rankRel →
      (ls.foldl (fun acc x => insertRanked x acc) acc).Pairwise rankRel from
    h l [] (List.Pairwise.nil)
  intro ls
  induction ls with
  | nil => exact fun acc h => h
  | cons x xs ih =>
    intro acc hacc
    exact ih _ (pairwise_insertRanked hacc)

theorem mem_stableRankSort {x : ScoredResult} {l : List ScoredResult} :
    x ∈ stableRankSort l ↔ x ∈ l := by
  rw [stableRankSort]
  suffices h : ∀ (ls : List ScoredResult) (acc : List ScoredResult),
      (x ∈ ls.foldl (fun acc y => insertRanked y acc) acc ↔ x ∈ acc ∨ x ∈ ls) by
    rw [h l []]
    simp
  intro ls
  induction ls with
  | nil => simp
  | cons y ys ih =>
    intro acc
    rw [List.foldl_cons, ih, mem_insertRanked]
    simp only [List.mem_cons]
    tauto

/-! ### Lemmas: nonnegativity of the fuzzy components -/

theorem ratio100_nonneg (a b : List Char) : 0 ≤ ratio100 a b := by
  rw [ratio100]
  split
  · norm_num
  · exact Rat.divInt_nonneg (Int.natCast_nonneg _) (Int.natCast_nonneg _)

theorem qMax_nonneg {a b : ℚ} (ha : 0 ≤ a) : 0 ≤ qMax a b := by
  rw [qMax_eq]
  exact le_max_of_le_left ha

theorem foldl_qMax_nonneg (l : List ℚ) {acc : ℚ} (hacc : 0 ≤ acc) :
    0 ≤ l.foldl qMax acc := by
  induction l generalizing acc with
  | nil => exact hacc
  | cons y ys ih => exact ih (qMax_nonneg hacc)

theorem pyMaxQ_nonneg {l : List ℚ} (h : ∀ x ∈ l, 0 ≤ x) : 0 ≤ pyMaxQ l := by
  cases l with
  | nil => exact le_refl 0
  | cons x xs => exact foldl_qMax_nonneg xs (h x (List.mem_cons_self _ _))

theorem foldl_qAdd_nonneg (l : List ℚ) {acc : ℚ} (hacc : 0 ≤ acc)
    (h : ∀ x ∈ l, 0 ≤ x) : 0 ≤ l.foldl qAdd acc := by
  induction l generalizing acc with
  | nil => exact hacc
  | cons y ys ih =>
    rw [List.foldl_cons]
    refine ih ?_ fun x hx => h x (List.mem_cons_of_mem _ hx)
    rw [qAdd_eq]
    exact add_nonneg hacc (h y (List.mem_cons_self _ _))

theorem pyAvgQ_nonneg {l : List ℚ} (h : ∀ x ∈ l, 0 ≤ x) : 0 ≤ pyAvgQ l := by
  cases l with
  | nil => exact le_refl 0
  | cons x xs =>
    rw [pyAvgQ, qDivNat_eq]
    exact div_nonneg (foldl_qAdd_nonneg _ (le_refl 0) h) (Nat.cast_nonneg _)

theorem pyRound_nonneg {q : ℚ} (h : 0 ≤ q) : 0 ≤ pyRound q := by
  have hnum : 0 ≤ q.num := Rat.num_nonneg.mpr h
  have hf : 0 ≤ q.num.fdiv q.den := Int.fdiv_nonneg hnum (Int.natCast_nonneg _)
  rw [pyRound]
  split
  · exact hf
  · split
    · omega
    · split
      · exact hf
      · omega

/-- The fuzzy addend of the score is a sum of nonnegative parts. -/
theorem fuzzyAddend_nonneg {w : ℤ} (hw : 0 ≤ w) (fz : List ℚ)
    (hfz : ∀ x ∈ fz, 0 ≤ x) :
    0 ≤ qAdd (intToQ w)
      (qAdd (qMul (Rat.divInt 2 5) (pyMaxQ fz)) (qMul (Rat.divInt 1 5) (pyAvgQ fz))) := by
  rw [qAdd_eq, qAdd_eq, qMul_eq, qMul_eq, intToQ_eq]
  have h25 : (0 : ℚ) ≤ Rat.divInt 2 5 := Rat.divInt_nonneg (by norm_num) (by norm_num)
  have h15 : (0 : ℚ) ≤ Rat.divInt 1 5 := Rat.divInt_nonneg (by norm_num) (by norm_num)
  refine add_nonneg ?_ (add_nonneg ?_ ?_)
  · exact_mod_cast hw
  · exact mul_nonneg h25 (pyMaxQ_nonneg hfz)
  · exact mul_nonneg h15 (pyAvgQ_nonneg hfz)

theorem fuzzyScoresOf_nonneg (expanded : List String) (bn plow : String) :
    ∀ x ∈ fuzzyScoresOf expanded bn plow, 0 ≤ x := by
  intro x hx
  rcases List.mem_map.mp hx with ⟨t, _, rfl⟩
  exact qMax_nonneg (ratio100_nonneg _ _)

theorem termPresent_spec (t p : String) :
    termPresent t (lowerStr p) (pathTokens (lowerStr p)) = true ↔ specContained t p := by
  simp [termPresent, specContained, List.any_eq_true]

theorem scoreOf_nonneg (core expanded : List String) (p : String)
    (hall : ∀ t ∈ core, termPresent t (lowerStr p) (pathTokens (lowerStr p)) = true) :
    0 ≤ scoreOf core expanded p := by
  rw [scoreOf]
  refine pyRound_nonneg ?_
  rw [baseScoreQ]
  have hcond : (decide (core.length ≤ core.length)) = true := by simp
  simp only [List.filter_eq_self.mpr hall, hcond, eq_self_iff_true, if_true]
  refine fuzzyAddend_nonneg ?_ _ (fuzzyScoresOf_nonneg _ _ _)
  split <;> omega

/-! ### Lemmas: the scoring formula matches the spec decomposition -/

theorem termPresent_eq_decide (t p : String) :
    termPresent t (lowerStr p) (pathTokens (lowerStr p)) =
      decide (specContained t p) := by
  by_cases hs : specContained t p
  · rw [decide_eq_true hs, (termPresent_spec t p).mpr hs]
  · rw [decide_eq_false hs]
    exact Bool.eq_false_iff.mpr fun hb => hs ((termPresent_spec t p).mp hb)

theorem filterPresent_len (core : List String) (p : String) :
    (core.filter (fun t => termPresent t (lowerStr p) (pathTokens (lowerStr p)))).length =
      core.countP (fun t => decide (specContained t p)) := by
  rw [List.filter_congr (fun t _ => termPresent_eq_decide t p),
    ← List.countP_eq_length_filter]

theorem allContained_iff (core : List String) (p : String) :
    core.length ≤ core.countP (fun t => decide (specContained t p)) ↔
      ∀ t ∈ core, specContained t p := by
  constructor
  · intro hle t ht
    have heq : core.countP (fun t => decide (specContained t p)) = core.length :=
      le_antisymm (List.countP_le_length _) hle
    have := List.countP_eq_length.mp heq t ht
    exact of_decide_eq_true this
  · intro hallc
    exact (List.countP_eq_length.mpr fun t ht => decide_eq_true (hallc t ht)).ge

theorem missing_count (core : List String) (p : String) :
    (core.length : ℤ) - (core.countP (fun t => decide (specContained t p)) : ℤ) =
      (core.countP (fun t => decide (¬specContained t p)) : ℤ) := by
  have hsplit :=
    List.length_eq_countP_add_countP (fun t => decide (specContained t p)) (l := core)
  have hc : core.countP (fun a => decide (¬(decide (specContained a p)) = true)) =
      core.countP (fun t => decide (¬specContained t p)) := by
    refine List.countP_congr fun t _ => ?_
    simp
  rw [hc] at hsplit
  omega

theorem baseScoreQ_eq_spec (core expanded : List String) (p : String) (h : core ≠ []) :
    baseScoreQ core expanded p =
      qAdd (intToQ (specCoverage core p + specPerTerm core p)) (specFuzzy expanded p) := by
  have hlenpos : 0 < core.length := List.length_pos.mpr h
  simp only [baseScoreQ, specFuzzy, fuzzyScoresOf, filterPresent_len core p]
  congr 1
  rw [specCoverage, specPerTerm]
  have htt : ∀ x y : ℤ, (if (true = true) then x else y) = x := fun x y => if_pos rfl
  have hff : ∀ x y : ℤ, (if (false = true) then x else y) = y :=
    fun x y => if_neg Bool.false_ne_true
  by_cases h2 : ∀ t ∈ core, specContained t p
  · rw [decide_eq_true ((allContained_iff core p).mpr h2)]
    simp only [htt, eq_self_iff_true, if_true]
    by_cases h1 : 1 < core.length
    · rw [if_pos h1, if_pos h1, if_pos h2]
    · have hlen1 : core.length = 1 := by omega
      rw [if_neg h1, if_neg h1, if_pos (And.intro hlen1 h2)]
  · rw [decide_eq_false (fun hle => h2 ((allContained_iff core p).mp hle))]
    simp only [hff, if_false]
    by_cases h1 : 1 < core.length
    · rw [if_pos h1, if_pos h1, if_neg h2, ← missing_count core p]
    · have hlen1 : core.length = 1 := by omega
      have hnc : ¬(core.length = 1 ∧ ∀ t ∈ core, specContained t p) := fun hc => h2 hc.2
      rw [if_neg h1, if_neg h1, if_neg hnc]

theorem scoreOf_eq_spec (core expanded : List String) (p : String) (h : core ≠ []) :
    scoreOf core expanded p = specScoreOf core expanded p := by
  rw [scoreOf, specScoreOf, baseScoreQ_eq_spec core expanded p h]

/-! ### Lemmas: the like-term list and candidate retrieval -/

theorem any_or_mem {f : String → Bool} {acc : List String} {t : String} (h : t ∈ acc) :
    (acc.any f || f t) = acc.any f := by
  cases hft : f t
  · simp
  · simp [List.any_eq_true.mpr ⟨t, h, hft⟩]

theorem any_append_single (acc : List String) (t : String) (f : String → Bool) :
    (acc ++ [t]).any f = (acc.any f || f t) := by
  simp

theorem blstep_any (f : String → Bool) (acc : List String) (t : String) :
    ((if 3 ≤ t.length then
        (if String.mk (t.data.take 3) ∈ (if t ∈ acc then acc else acc ++ [t])
         then (if t ∈ acc then acc else acc ++ [t])
         else (if t ∈ acc then acc else acc ++ [t]) ++ [String.mk (t.data.take 3)])
      else (if t ∈ acc then acc else acc ++ [t])).any f) =
    (acc.any f || (f t || (decide (3 ≤ t.length) && f (String.mk (t.data.take 3))))) := by
  have h1 : (if t ∈ acc then acc else acc ++ [t]).any f = (acc.any f || f t) := by
    by_cases ht : t ∈ acc
    · rw [if_pos ht, any_or_mem ht]
    · rw [if_neg ht, any_append_single]
  by_cases h3 : 3 ≤ t.length
  · rw [if_pos h3, decide_eq_true h3]
    by_cases hs : String.mk (t.data.take 3) ∈ (if t ∈ acc then acc else acc ++ [t])
    · rw [if_pos hs]
      have h2 := any_or_mem (f := f) hs
      rw [h1] at h2
      rw [h1, ← h2]
      cases acc.any f <;> cases f t <;> cases f (String.mk (t.data.take 3)) <;> simp
    · rw [if_neg hs, any_append_single, h1]
      cases acc.any f <;> cases f t <;> cases f (String.mk (t.data.take 3)) <;> simp
  · rw [if_neg h3, decide_eq_false h3, h1]
    cases acc.any f <;> cases f t <;> simp

theorem any_buildLikeTerms_aux (f : String → Bool) (e : List String) :
    ∀ acc : List String,
      ((e.foldl (fun lt t =>
        let lt1 := if t ∈ lt then lt else lt ++ [t]
        if 3 ≤ t.length then
          let short := String.mk (t.data.take 3)
          if short ∈ lt1 then lt1 else lt1 ++ [short]
        else lt1) acc).any f) =
      (acc.any f ||
        e.any (fun t => f t || (decide (3 ≤ t.length) && f (String.mk (t.data.take 3))))) := by
  induction e with
  | nil => intro acc; simp
  | cons t ts ih =>
    intro acc
    rw [List.foldl_cons, ih]
    simp only [List.any_cons]
    rw [blstep_any, Bool.or_assoc]

theorem any_buildLikeTerms (expanded : List String) (f : String → Bool) :
    (buildLikeTerms expanded).any f =
      expanded.any (fun t =>
        f t || (decide (3 ≤ t.length) && f (String.mk (t.data.take 3)))) := by
  rw [buildLikeTerms, any_buildLikeTerms_aux]
  simp

theorem foldl_dedupappend_ne_nil (l : List String) :
    ∀ acc : List String, acc ≠ [] →
      l.foldl (fun a s => if s ∈ a then a else a ++ [s]) acc ≠ [] := by
  induction l with
  | nil => exact fun acc h => h
  | cons s ss ih =>
    intro acc hacc
    rw [List.foldl_cons]
    refine ih _ ?_
    by_cases hs : s ∈ acc
    · rw [if_pos hs]; exact hacc
    · rw [if_neg hs]; simp

theorem expandTerms_ne_nil {terms : List String} (h : terms ≠ []) :
    expandTerms terms ≠ [] := by
  obtain ⟨t, ts, rfl⟩ := List.exists_cons_of_ne_nil h
  rw [expandTerms, List.foldl_cons]
  have hstep : ∀ (acc : List String) (u : String),
      acc ≠ [] →
      ((synonymsOf u).foldl (fun a s => if s ∈ a then a else a ++ [s])
        (if u ∈ acc then acc else acc ++ [u])) ≠ [] := by
    intro acc u hacc
    refine foldl_dedupappend_ne_nil _ _ ?_
    by_cases hu : u ∈ acc
    · rw [if_pos hu]; exact hacc
    · rw [if_neg hu]; simp
  have hfirst : ((synonymsOf t).foldl (fun a s => if s ∈ a then a else a ++ [s])
      (if t ∈ ([] : List String) then [] else [] ++ [t])) ≠ [] := by
    refine foldl_dedupappend_ne_nil _ _ ?_
    simp
  suffices haux : ∀ (l : List String) (acc : List String), acc ≠ [] →
      l.foldl (fun acc t =>
        (synonymsOf t).foldl (fun a s => if s ∈ a then a else a ++ [s])
          (if t ∈ acc then acc else acc ++ [t])) acc ≠ [] by
    exact haux ts _ hfirst
  intro l
  induction l with
  | nil => exact fun acc h2 => h2
  | cons u us ih =>
    intro acc hacc
    rw [List.foldl_cons]
    exact ih _ (hstep acc u hacc)

theorem buildLikeTerms_ne_nil {expanded : List String} (h : expanded ≠ []) :
    buildLikeTerms expanded ≠ [] := by
  obtain ⟨t, ts, rfl⟩ := List.exists_cons_of_ne_nil h
  rw [buildLikeTerms, List.foldl_cons]
  have hstep : ∀ (lt : List String) (u : String), lt ≠ [] →
      ((fun lt t =>
        let lt1 := if t ∈ lt then lt else lt ++ [t]
        if 3 ≤ t.length then
          let short := String.mk (t.data.take 3)
          if short ∈ lt1 then lt1 else lt1 ++ [short]
        else lt1) lt u) ≠ [] := by
    intro lt u hlt
    simp only []
    have hlt1 : (if u ∈ lt then lt else lt ++ [u]) ≠ [] := by
      by_cases hu : u ∈ lt
      · rw [if_pos hu]; exact hlt
      · rw [if_neg hu]; simp
    by_cases h3 : 3 ≤ u.length
    · rw [if_pos h3]
      by_cases hs : String.mk (u.data.take 3) ∈ (if u ∈ lt then lt else lt ++ [u])
      · rw [if_pos hs]; exact hlt1
      · rw [if_neg hs]; simp
    · rw [if_neg h3]; exact hlt1
  have hfirst : ((fun lt t =>
      let lt1 := if t ∈ lt then lt else lt ++ [t]
      if 3 ≤ t.length then
        let short := String.mk (t.data.take 3)
        if short ∈ lt1 then lt1 else lt1 ++ [short]
      else lt1) [] t) ≠ [] := by
    simp only []
    have hlt1 : (if t ∈ ([] : List String) then [] else ([] : List String) ++ [t]) ≠ [] := by
      simp
    by_cases h3 : 3 ≤ t.length
    · rw [if_pos h3]
      by_cases hs : String.mk (t.data.take 3) ∈
          (if t ∈ ([] : List String) then [] else ([] : List String) ++ [t])
      · rw [if_pos hs]; exact hlt1
      · rw [if_neg hs]; simp
    · rw [if_neg h3]; exact hlt1
  suffices haux : ∀ (l : List String) (lt : List String), lt ≠ [] →
      l.foldl (fun lt t =>
        let lt1 := if t ∈ lt then lt else lt ++ [t]
        if 3 ≤ t.length then
          let short := String.mk (t.data.take 3)
          if short ∈ lt1 then lt1 else lt1 ++ [short]
        else lt1) lt ≠ [] by
    exact haux ts _ hfirst
  intro l
  induction l with
  | nil => exact fun lt h2 => h2
  | cons u us ih =>
    intro lt hlt
    rw [List.foldl_cons]
    exact ih _ (hstep lt u hlt)

theorem retrieveCandidates_eq_spec (db : List String) (core expanded : List String)
    (limit : ℤ) (hcore : core ≠ []) (hexp : expanded ≠ []) :
    retrieveCandidates db core expanded limit = candidatesSpec db core expanded limit := by
  rw [retrieveCandidates, candidatesSpec]
  simp only [if_pos hcore]
  by_cases hlt : (((db.filter (fun p => core.all (fun t => likeContains t p))).take
      (if limit * 80 < 2000 then 2000 else limit * 80).toNat).length : ℤ) < limit
  · rw [if_pos hlt, if_pos hlt, if_pos (buildLikeTerms_ne_nil hexp)]
    rw [List.filter_congr (fun p _ => any_buildLikeTerms expanded
      (fun t => likeContains t p))]
    exact dedupInto_merge _ _
  · rw [if_neg hlt, if_neg hlt]

/-! ### Lemmas: query output shape -/

theorem dbstate_ext {a b : DBState} (hp : a.paths = b.paths) (hf : a.fts = b.fts) :
    a = b := by
  cases a; cases b
  simp_all

theorem walkList_append (fs : FileSystem) (t1 t2 : List String) :
    walkList fs (t1 ++ t2) = walkList fs t1 ++ walkList fs t2 := by
  rw [walkList, List.foldl_append, foldl_append_init]
  rfl

theorem mem_pySlice {α : Type} {x : α} {l : List α} {n : ℤ} (h : x ∈ pySlice l n) :
    x ∈ l := by
  rw [pySlice] at h
  split at h <;> exact List.mem_of_mem_take h

theorem pairwise_pySlice {α : Type} {R : α → α → Prop} {l : List α} {n : ℤ}
    (h : l.Pairwise R) : (pySlice l n).Pairwise R := by
  rw [pySlice]
  split <;> exact List.Pairwise.sublist (List.take_sublist _ _) h

theorem mem_aqp_score {db : List String} {q : String} {limit : ℤ} {r : ScoredResult}
    (hr : r ∈ advancedQueryPaths db q limit) :
    r.score = scoreOf (tokenizeQuery q) (expandTerms (tokenizeQuery q)) r.path := by
  rw [advancedQueryPaths] at hr
  split at hr
  · exact absurd hr (List.not_mem_nil r)
  · have hr2 := mem_pySlice hr
    rw [rankedResults] at hr2
    have hr3 := mem_stableRankSort.mp hr2
    rcases List.mem_map.mp hr3 with ⟨p, _, rfl⟩
    rfl

theorem aqp_length_le (db : List String) (q : String) {limit : ℤ} (h : 0 < limit) :
    (advancedQueryPaths db q limit).length ≤ limit.toNat := by
  rw [advancedQueryPaths]
  split
  · simp
  · rw [pySlice, if_pos h.le]
    exact List.length_take_le _ _

theorem aqp_pairwise (db : List String) (q : String) (limit : ℤ) :
    (advancedQueryPaths db q limit).Pairwise rankRel := by
  rw [advancedQueryPaths]
  split
  · exact List.Pairwise.nil
  · exact pairwise_pySlice (pairwise_stableRankSort _)

/-! ### The claims -/

set_option maxRecDepth 100000

/-- C1: for every candidate path and every non-empty query, the final
relevance score equals the rounded-to-integer sum of the coverage bonus
(+140 when there are several core terms and all are contained, otherwise
minus 90 per missing core term; +40 for a single contained core term),
plus 15 per contained core term, plus the fuzzy bonus of 0.4 times the
best and 0.2 times the average of the per-expanded-term percentages
`max(ratio(term, basename), ratio(term, full lower-cased path))`; a core
term is contained iff it is a substring of the lower-cased path or some
separator-delimited segment has similarity ratio at least 0.70 with it. -/
theorem c1_score_formula (q p : String) (h : tokenizeQuery q ≠ []) :
    scoreOf (tokenizeQuery q) (expandTerms (tokenizeQuery q)) p =
      specScoreOf (tokenizeQuery q) (expandTerms (tokenizeQuery q)) p :=
  scoreOf_eq_spec _ _ p h

theorem c1_score_formula_witness :
    tokenizeQuery "server world" ≠ [] ∧
    scoreOf (tokenizeQuery "server world")
        (expandTerms (tokenizeQuery "server world")) "c:/srv/x" =
      specScoreOf (tokenizeQuery "server world")
        (expandTerms (tokenizeQuery "server world")) "c:/srv/x" :=
  ⟨by decide, c1_score_formula "server world" "c:/srv/x" (by decide)⟩

/-- C2 counterexample: the claim reads Phase A as selecting exactly the
paths containing every core term as a substring, but the retrieval uses
SQL `LIKE`, in which an underscore in a term matches any single character:
for the query `a_b` the stored path `axb` is retrieved although `a_b` is
not a substring of it. -/
theorem c2_like_wildcard_counterexample :
    tokenizeQuery "a_b" = ["a_b"] ∧ expandTerms ["a_b"] = ["a_b"] ∧
    retrieveCandidates ["axb"] ["a_b"] ["a_b"] 20 = ["axb"] ∧
    isSubList "a_b".data (lowerStr "axb").data = false := by decide

/-- C2 (amended): candidate retrieval is two-phase exactly as claimed —
Phase A keeps up to `max(limit*80, 2000)` stored paths matching every core
term, Phase B runs only when Phase A yields fewer rows than the limit and
adds up-to-cap paths matching any expanded term or its first-three-character
slice (for terms of length at least 3), skipping paths already present, and
the final pool lists each path once in first-discovery order — with term
matching being SQL `LIKE` containment (`%term%`, where an underscore in the
term matches any one character and a percent sign any run) rather than plain
substring containment. -/
theorem c2_two_phase_retrieval (db : List String) (q : String) (limit : ℤ)
    (h : tokenizeQuery q ≠ []) :
    retrieveCandidates db (tokenizeQuery q) (expandTerms (tokenizeQuery q)) limit =
      candidatesSpec db (tokenizeQuery q) (expandTerms (tokenizeQuery q)) limit :=
  retrieveCandidates_eq_spec db _ _ limit h (expandTerms_ne_nil h)

theorem c2_two_phase_retrieval_witness :
    tokenizeQuery "a_b" ≠ [] ∧
    retrieveCandidates ["axb"] (tokenizeQuery "a_b")
        (expandTerms (tokenizeQuery "a_b")) 20 =
      candidatesSpec ["axb"] (tokenizeQuery "a_b")
        (expandTerms (tokenizeQuery "a_b")) 20 :=
  ⟨by decide, c2_two_phase_retrieval ["axb"] "a_b" 20 (by decide)⟩

/-- C3: for every query text and every positive limit, the returned
sequence has length at most the limit and is sorted by score descending,
ties between equal scores broken by shorter path first (`rankRel`). -/
theorem c3_limit_and_order (db : List String) (q : String) (limit : ℤ)
    (h : 0 < limit) :
    (advancedQueryPaths db q limit).length ≤ limit.toNat ∧
    (advancedQueryPaths db q limit).Pairwise rankRel :=
  ⟨aqp_length_le db q h, aqp_pairwise db q limit⟩

theorem c3_limit_and_order_witness :
    (0 : ℤ) < 2 ∧
    ((advancedQueryPaths ["c:/ab", "c:/b/ab", "c:/abc"] "ab" 2).length ≤
        (2 : ℤ).toNat ∧
      (advancedQueryPaths ["c:/ab", "c:/b/ab", "c:/abc"] "ab" 2).Pairwise rankRel) :=
  ⟨by decide, c3_limit_and_order ["c:/ab", "c:/b/ab", "c:/abc"] "ab" 2 (by decide)⟩

/-- C4: for a fixed filesystem snapshot and target list, running the
rebuild twice leaves exactly the state one run leaves: the stored records,
the row count and every query result sequence coincide. -/
theorem c4_rebuild_idempotent (hasFts : Bool) (fs : FileSystem) (st : DBState)
    (targets : List String) :
    rebuildIndex hasFts fs (rebuildIndex hasFts fs st targets) targets =
      rebuildIndex hasFts fs st targets ∧
    storedCount (rebuildIndex hasFts fs (rebuildIndex hasFts fs st targets) targets) =
      storedCount (rebuildIndex hasFts fs st targets) ∧
    ∀ (q : String) (limit : ℤ),
      advancedQueryPaths
          (rebuildIndex hasFts fs (rebuildIndex hasFts fs st targets) targets).paths
          q limit =
        advancedQueryPaths (rebuildIndex hasFts fs st targets).paths q limit := by
  have hs : rebuildIndex hasFts fs (rebuildIndex hasFts fs st targets) targets =
      rebuildIndex hasFts fs st targets := by
    refine dbstate_ext ?_ ?_
    · rw [rebuild_paths, rebuild_paths]
    · rw [rebuild_fts, rebuild_fts]
      by_cases hf : hasFts = true
      · rw [if_pos hf, if_pos hf]
      · rw [if_neg hf, if_neg hf]
  exact ⟨hs, by rw [hs], fun q limit => by rw [hs]⟩

/-- C5: after every rebuild the primary table holds each path at most once
(`Nodup`), and walking the same root list twice — so encountering every
path twice — produces exactly the records of a single walk, not an
inflated set. -/
theorem c5_unique_paths (hasFts : Bool) (fs : FileSystem) (st : DBState)
    (targets : List String) :
    (rebuildIndex hasFts fs st targets).paths.Nodup ∧
    (rebuildIndex hasFts fs st (targets ++ targets)).paths =
      (rebuildIndex hasFts fs st targets).paths := by
  constructor
  · rw [rebuild_paths]
    exact nodup_dedupInto _ List.nodup_nil
  · rw [rebuild_paths, rebuild_paths, walkList_append, dedupInto_append]
    exact dedupInto_eq_self fun x hx => (mem_dedupInto_nil _).mpr hx

/-- C6 counterexample: a non-positive limit is not replaced by the default
20 — limit 0 returns the empty sequence, limit minus 1 drops the last
ranked entry (here: everything), both unlike limit 20. -/
theorem c6_nonpositive_limit_counterexample :
    advancedQueryPaths ["c:/abc"] "abc" 0 = [] ∧
    advancedQueryPaths ["c:/abc"] "abc" (-1) = [] ∧
    advancedQueryPaths ["c:/abc"] "abc" 20 ≠ [] := by decide

/-- C6 (amended): only an omitted limit falls back to the default 20
(`superFind`); an explicitly non-positive limit is passed straight to the
Python slice `results[:limit]`, so limit 0 yields the empty sequence and
limit minus 1 yields the ranked sequence without its last element. -/
theorem c6_limit_semantics (db : List String) (q : String) :
    superFind db q = advancedQueryPaths db q 20 ∧
    advancedQueryPaths db q 0 = [] ∧
    advancedQueryPaths db q (-1) =
      (if tokenizeQuery q = [] then [] else (rankedResults db q (-1)).dropLast) := by
  refine ⟨rfl, ?_, ?_⟩
  · by_cases hq : tokenizeQuery q = []
    · rw [advancedQueryPaths, if_pos hq]
    · rw [advancedQueryPaths, if_neg hq, pySlice, if_pos (le_refl 0)]
      simp
  · by_cases hq : tokenizeQuery q = []
    · rw [advancedQueryPaths, if_pos hq, if_pos hq]
    · rw [advancedQueryPaths, if_neg hq, if_neg hq, pySlice, if_neg (by norm_num)]
      have hl : (((rankedResults db q (-1)).length : ℤ) + (-1)).toNat =
          (rankedResults db q (-1)).length - 1 := by omega
      rw [hl, List.dropLast_eq_take]

/-- C7 counterexample: an existing absolute directory path target
contributes zero records: `C:/Users/x` is normalised to `C:/Users/x:/`,
which names no root of the snapshot, although the snapshot lists entries
beneath `C:/Users/x`. -/
theorem c7_directory_target_counterexample :
    (rebuildIndex true [("C:/Users/x", ["C:/Users/x/file"])] ⟨[], []⟩
        ["C:/Users/x"]).paths = [] ∧
    List.lookup "C:/Users/x" [("C:/Users/x", ["C:/Users/x/file"])] =
      some ["C:/Users/x/file"] := by decide

/-- C7 (amended): every target is normalised by stripping trailing colons,
slashes, backslashes and surrounding whitespace and then appending `:/`;
bare letters and the forms `C:` and `C:/` thus map to the drive root
`C:/` and exactly the snapshot entries beneath the normalised root are
indexed (de-duplicated, in discovery order) — but an absolute directory
path such as `C:/Users/x` is mangled to `C:/Users/x:/`, so an existing
directory target contributes zero records rather than the records beneath
that directory. -/
theorem c7_target_normalisation :
    (stripTarget "C" ++ ":/" = "C:/" ∧ stripTarget "C:" ++ ":/" = "C:/" ∧
      stripTarget "C:/" ++ ":/" = "C:/" ∧
      stripTarget "C:/Users/x" ++ ":/" = "C:/Users/x:/") ∧
    ∀ (hasFts : Bool) (fs : FileSystem) (st : DBState) (targets : List String),
      (rebuildIndex hasFts fs st targets).paths = dedupInto [] (walkList fs targets) :=
  ⟨⟨by decide, by decide, by decide, by decide⟩, rebuild_paths⟩

/-- C8 counterexample: when the same root is listed twice, every path is
walked twice; the primary table ignores the duplicate row but the FTS
mirror keeps it, so after a successful rebuild the mirror rows do not
match the primary rows. -/
theorem c8_mirror_counterexample :
    (rebuildIndex true [("C:/", ["C:/a"])] ⟨[], []⟩ ["C", "C"]).paths = ["C:/a"] ∧
    (rebuildIndex true [("C:/", ["C:/a"])] ⟨[], []⟩ ["C", "C"]).fts =
      ["C:/a", "C:/a"] := by decide

/-- C8 (amended): after any rebuild with the FTS mirror present, the
mirror contains exactly the walked entries, duplicates included, while the
primary table de-duplicates them; the two tables therefore agree only up
to de-duplication — the distinct values of the mirror are exactly the
primary rows. -/
theorem c8_mirror_matches_as_set (fs : FileSystem) (st : DBState)
    (targets : List String) :
    dedupInto [] (rebuildIndex true fs st targets).fts =
      (rebuildIndex true fs st targets).paths := by
  rw [rebuild_fts, rebuild_paths, if_pos rfl]

/-- C9: the public API does not provide the claimed `count()` operation:
the `/qcount` handler imports `quick_count` from `path_index_local`, but
the module binds no such name, so the import fails and `/qcount` reports
an error instead of the record count. -/
theorem c9_count_entrypoint_missing :
    quickCountImportName ∉ pathIndexLocalTopLevelNames := by decide

/-- C10 counterexample: a returned score can be negative — the Phase B
fallback retrieves `c:/srv/x` for the query `server world` although the
path misses both core terms, and the two missing-term penalties outweigh
the fuzzy bonus. -/
theorem c10_negative_score_counterexample :
    ∃ r ∈ advancedQueryPaths ["c:/srv/x"] "server world" 20, r.score < 0 := by decide

/-- C10 (amended): every returned relevance score is an integer, and it is
nonnegative whenever the result path contains all core terms of the query;
scores of fallback candidates that miss core terms can be negative, so the
claimed 0 to roughly 180 range only holds for full-coverage matches. -/
theorem c10_score_nonneg_on_coverage (db : List String) (q : String) (limit : ℤ)
    (r : ScoredResult) (hr : r ∈ advancedQueryPaths db q limit)
    (hall : ∀ t ∈ tokenizeQuery q, specContained t r.path) :
    0 ≤ r.score := by
  rw [mem_aqp_score hr]
  refine scoreOf_nonneg _ _ _ fun t ht => ?_
  rw [termPresent_eq_decide]
  exact decide_eq_true (hall t ht)

theorem c10_score_nonneg_on_coverage_witness :
    ((⟨"c:/ab", 115⟩ : ScoredResult) ∈ advancedQueryPaths ["c:/ab"] "ab" 20 ∧
      ∀ t ∈ tokenizeQuery "ab", specContained t "c:/ab") ∧
    0 ≤ (⟨"c:/ab", 115⟩ : ScoredResult).score :=
  ⟨⟨by decide, by decide⟩,
    c10_score_nonneg_on_coverage ["c:/ab"] "ab" 20 ⟨"c:/ab", 115⟩ (by decide) (by decide)⟩
